import Mathlib

/-!
Verification of the CDC-ECM frame reassembly and transmission core of the
`usbnet` package (file `cdc_ecm.go`).

The embedding models bytes as `Nat`, Go byte slices as `List Nat`, Go `error`
values as `Option String` (`none` is Go's `nil` error), and the gVisor channel
endpoint as two explicit packet queues (`inbound` for packets injected with
`InjectInbound`, `outbound` for packets pending `Link.Read`).
-/

namespace Usbnet

/-- A packet injected into the link endpoint by `InjectInbound`: the protocol
number passed alongside the packet buffer, the 14-byte link header pushed onto
the buffer, and the payload. -/
structure InPacket where
  proto : Nat
  hdr : List Nat
  payload : List Nat
deriving DecidableEq, Repr

/-- A packet queued on the link endpoint for transmission, as read by
`Link.Read()`: its network protocol number and its byte slices
(`pkt.AsSlices()`), possibly discontiguous. -/
structure OutPacket where
  proto : Nat
  slices : List (List Nat)
deriving DecidableEq, Repr

/-- State of a `NIC` (struct `NIC` of `cdc_ecm.go`) relevant to the data
path: the two configured MAC addresses, the endpoint maximum packet size
(`eth.maxPacketSize`), the reassembly buffer `eth.buf`, and the two queues of
the channel link endpoint. -/
structure NIC where
  hostMAC : List Nat
  deviceMAC : List Nat
  maxPacketSize : Nat
  buf : List Nat
  inbound : List InPacket
  outbound : List OutPacket
deriving DecidableEq, Repr

/-- The packet built by the dispatch step of `ECMRx` from the accumulated
buffer `b`: protocol is `binary.BigEndian.Uint16(b[12:14])`, the link header
is `b[0:14]`, the payload is `b[14:]`. -/
def mkInPacket (b : List Nat) : InPacket :=
  { proto := 256 * b.getD 12 0 + b.getD 13 0
    hdr := b.take 14
    payload := b.drop 14 }

/-- Result of an `ECMRx` call: the updated NIC state, the returned byte slice
(the source never assigns the first return value, so it is always `[]`), and
the returned `err` (never assigned either, hence always `none`). -/
structure RxResult where
  nic : NIC
  ret : List Nat
  err : Option String
deriving DecidableEq, Repr

/-- Result of an `ECMTx` call: the updated NIC state, the returned frame
bytes `in`, and the returned `err`. -/
structure TxResult where
  nic : NIC
  ret : List Nat
  err : Option String
deriving DecidableEq, Repr

/-- Function `ECMRx` of `cdc_ecm.go`, the endpoint 1 OUT function.  `none` models the
Go slice-bounds panic of `eth.buf[0:14]` when the accumulated buffer is
shorter than 14 bytes; that state is unreachable from any state satisfying
the buffer invariant.  The `lastErr` argument is ignored by the source. -/
def ECMRx (eth : NIC) (out : List Nat) (lastErr : Option String) : Option RxResult :=
  if eth.buf.length = 0 ∧ out.length < 14 then
    some ⟨eth, [], none⟩
  else
    -- eth.buf = append(eth.buf, out...)
    let buf := eth.buf ++ out
    -- more data expected or zero length packet
    if out.length = eth.maxPacketSize then
      some ⟨{ eth with buf := buf }, [], none⟩
    else if 14 ≤ buf.length then
      some ⟨{ eth with buf := []
                       inbound := eth.inbound ++ [mkInPacket buf] }, [], none⟩
    else
      none

/-- The 2-byte big-endian encoding written by
`binary.BigEndian.PutUint16(proto, uint16(n))`: the cast to `uint16`
truncates to the low 16 bits. -/
def putUint16be (n : Nat) : List Nat :=
  [(n % 65536) / 256, n % 256]

/-- Function `ECMTx` of `cdc_ecm.go`, the endpoint 1 IN function.  Reads one packet
from the link endpoint (or returns empty when none is pending) and prepends
the 14-byte Ethernet header.  The `lastErr` argument is ignored by the
source and the returned `err` is never assigned. -/
def ECMTx (eth : NIC) (lastErr : Option String) : TxResult :=
  match eth.outbound with
  | [] => ⟨eth, [], none⟩
  | pkt :: rest =>
      ⟨{ eth with outbound := rest },
       eth.hostMAC ++ eth.deviceMAC ++ putUint16be pkt.proto ++ pkt.slices.flatten,
       none⟩

/-- Feeds a sequence of USB bulk OUT transfers to `ECMRx` in order (each with
a `nil` transfer error), threading the NIC state. -/
def feedList (eth : NIC) (cs : List (List Nat)) : Option NIC :=
  match cs with
  | [] => some eth
  | c :: cs =>
      match ECMRx eth c none with
      | some r => feedList r.nic cs
      | none => none

/-- The CDC-ECM chunking of one logical frame into bulk transfers: maximal
transfers of exactly `mps` bytes followed by a final transfer shorter than
`mps` (a zero-length transfer when the frame length is an exact multiple of
`mps`).  The `mps = 0` guard only ensures termination; every use assumes
`14 ≤ mps`. -/
def chunkFrame (mps : Nat) (frame : List Nat) : List (List Nat) :=
  if mps = 0 ∨ frame.length < mps then [frame]
  else frame.take mps :: chunkFrame mps (frame.drop mps)
termination_by frame.length
decreasing_by
  rw [List.length_drop]
  omega

/-- A sequence of transfers terminated per the CDC-ECM completion rule:
every transfer before the last is exactly `mps` bytes, the last is strictly
shorter than `mps`. -/
inductive TerminatedSplit (mps : Nat) : List (List Nat) → Prop
  | last (c : List Nat) : c.length < mps → TerminatedSplit mps [c]
  | cons (c : List Nat) (cs : List (List Nat)) :
      c.length = mps → TerminatedSplit mps cs → TerminatedSplit mps (c :: cs)

/-- The reassembly-buffer invariant of the data model: between transfers the
buffer is empty or holds at least a 14-byte link-layer header. -/
def bufInv (st : NIC) : Prop :=
  st.buf = [] ∨ 14 ≤ st.buf.length

/-- A concrete NIC in its initial state, with the maximum packet size 512 of
the source's `MaxPacketSize` default. -/
def nic0 : NIC :=
  { hostMAC := [0x1a, 0x55, 0x89, 0xa2, 0x69, 0x41]
    deviceMAC := [0x1a, 0x55, 0x89, 0xa2, 0x69, 0x42]
    maxPacketSize := 512
    buf := []
    inbound := []
    outbound := [] }

/-- A concrete NIC with a small maximum packet size (still at least 14), for
witness computations. -/
def nicW : NIC :=
  { hostMAC := [0x1a, 0x55, 0x89, 0xa2, 0x69, 0x41]
    deviceMAC := [0x1a, 0x55, 0x89, 0xa2, 0x69, 0x42]
    maxPacketSize := 16
    buf := []
    inbound := []
    outbound := [] }

/-! ### Branch lemmas for `ECMRx` -/

/-- A call that passes the initial short-chunk guard: the buffer is non-empty
or the chunk is at least 14 bytes. -/
theorem rx_pre_not (eth : NIC) (out : List Nat)
    (hpre : eth.buf ≠ [] ∨ 14 ≤ out.length) :
    ¬(eth.buf.length = 0 ∧ out.length < 14) := by
  rcases hpre with h | h
  · intro hc
    exact h (List.length_eq_zero.mp hc.1)
  · omega

/-- Drop branch of `ECMRx`: empty buffer and a chunk shorter than 14 bytes
leave the state untouched and return no error. -/
theorem ECMRx_drop (eth : NIC) (out : List Nat) (e : Option String)
    (h0 : eth.buf = []) (h1 : out.length < 14) :
    ECMRx eth out e = some ⟨eth, [], none⟩ := by
  simp [ECMRx, h0, h1]

/-- Retain branch of `ECMRx`: a chunk of exactly the maximum packet size is
appended to the buffer and nothing is dispatched. -/
theorem ECMRx_retain (eth : NIC) (out : List Nat) (e : Option String)
    (hpre : eth.buf ≠ [] ∨ 14 ≤ out.length)
    (hlen : out.length = eth.maxPacketSize) :
    ECMRx eth out e = some ⟨{ eth with buf := eth.buf ++ out }, [], none⟩ := by
  simp [ECMRx, rx_pre_not eth out hpre, hlen]
  intro hb hm
  exfalso
  rcases hpre with h | h
  · exact h hb
  · omega

/-- Dispatch branch of `ECMRx`: a chunk whose length differs from the maximum
packet size completes the frame, injects one packet built from the
accumulated buffer and resets the buffer. -/
theorem ECMRx_dispatch (eth : NIC) (out : List Nat) (e : Option String)
    (hpre : eth.buf ≠ [] ∨ 14 ≤ out.length)
    (hlen : out.length ≠ eth.maxPacketSize)
    (h14 : 14 ≤ eth.buf.length + out.length) :
    ECMRx eth out e =
      some ⟨{ eth with buf := []
                       inbound := eth.inbound ++ [mkInPacket (eth.buf ++ out)] },
            [], none⟩ := by
  simp [ECMRx, rx_pre_not eth out hpre, hlen, List.length_append, h14]
  intro hb hl
  exfalso
  rcases hpre with h | h
  · exact h hb
  · omega

/-! ### Invariant preservation -/

/-- From a state satisfying the buffer invariant, `ECMRx` never reaches the
out-of-bounds slice (it returns `some`), returns a nil error, and preserves
the invariant. -/
theorem ECMRx_inv_step (eth : NIC) (out : List Nat) (e : Option String)
    (h : bufInv eth) :
    ∃ r, ECMRx eth out e = some r ∧ bufInv r.nic ∧ r.err = none := by
  by_cases h0 : eth.buf.length = 0 ∧ out.length < 14
  · refine ⟨⟨eth, [], none⟩, ?_, h, rfl⟩
    simp [ECMRx, h0.1, h0.2]
  · have h14 : 14 ≤ eth.buf.length + out.length := by
      rcases h with hb | hb
      · have : eth.buf.length = 0 := by simp [hb]
        omega
      · omega
    by_cases hlen : out.length = eth.maxPacketSize
    · refine ⟨⟨{ eth with buf := eth.buf ++ out }, [], none⟩, ?_, ?_, rfl⟩
      · simp [ECMRx, h0, hlen]
        intro hb hm
        exact absurd ⟨by simp [hb], by omega⟩ h0
      · right
        simp only [List.length_append]
        omega
    · refine ⟨⟨{ eth with buf := []
                          inbound := eth.inbound ++ [mkInPacket (eth.buf ++ out)] },
              [], none⟩, ?_, Or.inl rfl, rfl⟩
      simp [ECMRx, h0, hlen, List.length_append, h14]
      intro hb hl
      exact absurd ⟨by simp [hb], hl⟩ h0

/-- From a state satisfying the buffer invariant, any sequence of transfers
is processed without reaching the out-of-bounds slice, and the invariant
holds at every quiescent point. -/
theorem feedList_inv : ∀ (cs : List (List Nat)) (st : NIC), bufInv st →
    ∃ st', feedList st cs = some st' ∧ bufInv st' := by
  intro cs
  induction cs with
  | nil => exact fun st h => ⟨st, rfl, h⟩
  | cons c cs ih =>
      intro st h
      obtain ⟨r, hr, hinv, -⟩ := ECMRx_inv_step st c none h
      obtain ⟨st', hst', hinv'⟩ := ih r.nic hinv
      exact ⟨st', by simp [feedList, hr, hst'], hinv'⟩

/-! ### Chunking lemmas -/

/-- Concatenating the CDC-ECM chunks of a frame gives back the frame. -/
theorem chunkFrame_flatten (mps : Nat) (frame : List Nat) :
    (chunkFrame mps frame).flatten = frame := by
  induction frame using chunkFrame.induct mps with
  | case1 frame h =>
      rw [chunkFrame, if_pos h]
      simp
  | case2 frame h ih =>
      rw [chunkFrame, if_neg h]
      simp [ih]

/-- The CDC-ECM chunking of a frame is terminated per the completion rule. -/
theorem chunkFrame_terminated (mps : Nat) (h0 : 0 < mps) (frame : List Nat) :
    TerminatedSplit mps (chunkFrame mps frame) := by
  induction frame using chunkFrame.induct mps with
  | case1 frame h =>
      rw [chunkFrame, if_pos h]
      rcases h with h | h
      · omega
      · exact TerminatedSplit.last frame h
  | case2 frame h ih =>
      rw [chunkFrame, if_neg h]
      push_neg at h
      refine TerminatedSplit.cons _ _ ?_ ih
      rw [List.length_take]
      omega

/-! ### The main reassembly lemma -/

/-- Feeding a CDC-ECM-terminated sequence of transfers to `ECMRx` from any
state completes exactly one frame built from the buffer followed by the
concatenation of the transfers, and resets the buffer. -/
theorem feed_terminated (mps : Nat) (hmps : 14 ≤ mps) :
    ∀ (cs : List (List Nat)), TerminatedSplit mps cs →
    ∀ st : NIC, st.maxPacketSize = mps →
    (st.buf = [] → 14 ≤ cs.flatten.length) →
    14 ≤ st.buf.length + cs.flatten.length →
    feedList st cs =
      some { st with buf := []
                     inbound := st.inbound ++ [mkInPacket (st.buf ++ cs.flatten)] } := by
  intro cs hts
  induction hts with
  | last c hc =>
      intro st hm hE h14
      have hflat : List.flatten [c] = c := by simp
      rw [hflat] at hE h14
      have hpre : st.buf ≠ [] ∨ 14 ≤ c.length := by
        by_cases hb : st.buf = []
        · exact Or.inr (hE hb)
        · exact Or.inl hb
      have hd := ECMRx_dispatch st c none hpre (by omega) h14
      simp [feedList, hd]
  | cons c cs hlen hts ih =>
      intro st hm hE h14
      have hclen : 14 ≤ c.length := by omega
      have hret := ECMRx_retain st c none (Or.inr hclen) (by rw [hlen, hm])
      have hne : st.buf ++ c ≠ [] := by
        intro hnil
        rcases List.append_eq_nil.mp hnil with ⟨-, hc⟩
        rw [hc] at hclen
        simp at hclen
      have hih := ih { st with buf := st.buf ++ c } (by simp [hm])
        (fun hnil => absurd hnil hne)
        (by
          simp only [List.length_append]
          simp only [List.flatten_cons, List.length_append] at h14
          omega)
      rw [show feedList st (c :: cs) = feedList { st with buf := st.buf ++ c } cs from by
        simp [feedList, hret]]
      rw [hih]
      simp [List.append_assoc]

/-- Feeding the canonical CDC-ECM chunking of a frame of at least 14 bytes
from an empty-buffer state injects exactly the packet built from the frame. -/
theorem feed_chunkFrame (st : NIC) (F : List Nat)
    (hmps : 14 ≤ st.maxPacketSize) (hbuf : st.buf = []) (hF : 14 ≤ F.length) :
    feedList st (chunkFrame st.maxPacketSize F) =
      some { st with buf := []
                     inbound := st.inbound ++ [mkInPacket F] } := by
  have hts := chunkFrame_terminated st.maxPacketSize (by omega) F
  have hflat := chunkFrame_flatten st.maxPacketSize F
  have h := feed_terminated st.maxPacketSize hmps _ hts st rfl
    (by rw [hflat]; exact fun _ => hF)
    (by rw [hflat, hbuf]; simpa using hF)
  rw [h, hflat, hbuf]
  simp

/-! ### Claim theorems -/

/-- C1: when the reassembly buffer is non-empty or the chunk is at least 14
bytes (and the state satisfies the buffer invariant of the data model), a
chunk whose length differs from the maximum packet size injects exactly one
packet whose protocol is the big-endian 16-bit value at bytes 12-13 of the
accumulated buffer and whose payload is bytes 14..end of it, resetting the
buffer; a chunk of exactly the maximum packet size injects nothing and
retains the appended buffer. -/
theorem c1_rx_dispatch_or_retain (st : NIC) (out : List Nat) (e : Option String)
    (hinv : bufInv st) (hpre : st.buf ≠ [] ∨ 14 ≤ out.length) :
    (out.length ≠ st.maxPacketSize →
      ECMRx st out e =
        some ⟨{ st with buf := []
                        inbound := st.inbound ++ [mkInPacket (st.buf ++ out)] },
              [], none⟩) ∧
    (out.length = st.maxPacketSize →
      ECMRx st out e = some ⟨{ st with buf := st.buf ++ out }, [], none⟩) := by
  constructor
  · intro hlen
    refine ECMRx_dispatch st out e hpre hlen ?_
    rcases hinv with hb | hb
    · rcases hpre with h | h
      · exact absurd hb h
      · omega
    · omega
  · intro hlen
    exact ECMRx_retain st out e hpre hlen

/-- Witness for C1 at a concrete input: a 14-byte chunk on an empty buffer
with maximum packet size 16 dispatches immediately. -/
theorem c1_witness :
    ECMRx nicW (List.replicate 14 7) none =
      some ⟨{ nicW with buf := []
                        inbound := nicW.inbound ++
                          [mkInPacket (nicW.buf ++ List.replicate 14 7)] },
            [], none⟩ :=
  (c1_rx_dispatch_or_retain nicW (List.replicate 14 7) none (Or.inl rfl)
    (Or.inr (by decide))).1 (by decide)

/-- C2: from an empty buffer, a chunk of exactly the maximum packet size
(at least 14) followed by a zero-length chunk injects exactly one packet
whose payload length is the maximum packet size minus 14; the first call
injects nothing. -/
theorem c2_full_then_zlp (st : NIC) (out : List Nat)
    (hbuf : st.buf = []) (hmps : 14 ≤ st.maxPacketSize)
    (hlen : out.length = st.maxPacketSize) :
    ECMRx st out none = some ⟨{ st with buf := out }, [], none⟩ ∧
    feedList st [out, []] =
      some { st with buf := []
                     inbound := st.inbound ++ [mkInPacket out] } ∧
    (mkInPacket out).payload.length = st.maxPacketSize - 14 := by
  have h1 := ECMRx_retain st out none (Or.inr (by omega)) hlen
  have hne : st.buf ++ out ≠ [] := by
    rw [hbuf]
    simp only [List.nil_append]
    intro h
    rw [h] at hlen
    simp at hlen
    omega
  have h2 := ECMRx_dispatch { st with buf := st.buf ++ out } [] none (Or.inl hne)
    (by simp; omega)
    (by simp only [List.length_append, List.length_nil]; omega)
  simp only [hbuf, List.nil_append, List.append_nil] at h1 h2
  refine ⟨?_, ?_, ?_⟩
  · rw [h1]
  · simp [feedList, h1, h2]
  · simp [mkInPacket]
    omega

/-- Witness for C2: maximum packet size 16, a 16-byte chunk then a
zero-length chunk. -/
theorem c2_witness :
    ECMRx nicW (List.replicate 16 3) none =
      some ⟨{ nicW with buf := List.replicate 16 3 }, [], none⟩ ∧
    feedList nicW [List.replicate 16 3, []] =
      some { nicW with buf := []
                       inbound := nicW.inbound ++ [mkInPacket (List.replicate 16 3)] } ∧
    (mkInPacket (List.replicate 16 3)).payload.length = nicW.maxPacketSize - 14 :=
  c2_full_then_zlp nicW (List.replicate 16 3) rfl (by decide) (by decide)

/-- C3: `ECMTx` returns an empty result on an empty outbound queue, and
otherwise dequeues exactly one packet and returns host MAC, device MAC, the
protocol number as 2 big-endian bytes (a 14-byte header for the configured
6-byte MACs), followed by the packet's slices concatenated in order. -/
theorem c3_tx (st : NIC) (e : Option String)
    (h6 : st.hostMAC.length = 6) (h6d : st.deviceMAC.length = 6) :
    (st.outbound = [] → ECMTx st e = ⟨st, [], none⟩) ∧
    (∀ p rest, st.outbound = p :: rest → p.proto < 65536 →
      (ECMTx st e =
        ⟨{ st with outbound := rest },
         (st.hostMAC ++ st.deviceMAC ++ [p.proto / 256, p.proto % 256]) ++
           p.slices.flatten,
         none⟩ ∧
       (st.hostMAC ++ st.deviceMAC ++ [p.proto / 256, p.proto % 256]).length = 14)) := by
  constructor
  · intro h
    simp [ECMTx, h]
  · intro p rest h hp
    constructor
    · simp [ECMTx, h, putUint16be, Nat.mod_eq_of_lt hp]
    · simp [List.length_append, h6, h6d]

/-- Witness for C3: one IPv4 packet (ethertype 0x0800 = 2048) with two
payload slices. -/
theorem c3_witness :
    ECMTx { nicW with outbound := [⟨2048, [[1, 2, 3], [4]]⟩] } none =
      ⟨{ nicW with outbound := [] },
       (nicW.hostMAC ++ nicW.deviceMAC ++ [8, 0]) ++ [1, 2, 3, 4],
       none⟩ := by
  have h := (c3_tx { nicW with outbound := [⟨2048, [[1, 2, 3], [4]]⟩] } none
    (by decide) (by decide)).2 ⟨2048, [[1, 2, 3], [4]]⟩ [] rfl (by decide)
  simpa using h.1

/-- C10: a chunk strictly longer than the maximum packet size (with the
buffer non-empty or the chunk at least 14 bytes, under the buffer invariant)
dispatches the accumulated buffer immediately rather than retaining it,
because only a length exactly equal to the maximum packet size defers. -/
theorem c10_oversize_dispatch (st : NIC) (out : List Nat) (e : Option String)
    (hinv : bufInv st) (hpre : st.buf ≠ [] ∨ 14 ≤ out.length)
    (hgt : st.maxPacketSize < out.length) :
    ECMRx st out e =
      some ⟨{ st with buf := []
                      inbound := st.inbound ++ [mkInPacket (st.buf ++ out)] },
            [], none⟩ := by
  refine ECMRx_dispatch st out e hpre (by omega) ?_
  rcases hinv with hb | hb
  · rcases hpre with h | h
    · exact absurd hb h
    · omega
  · omega

/-- Witness for C10: a 17-byte chunk with maximum packet size 16 dispatches
immediately. -/
theorem c10_witness :
    ECMRx nicW (List.replicate 17 2) none =
      some ⟨{ nicW with buf := []
                        inbound := nicW.inbound ++
                          [mkInPacket (nicW.buf ++ List.replicate 17 2)] },
            [], none⟩ :=
  c10_oversize_dispatch nicW (List.replicate 17 2) none (Or.inl rfl)
    (Or.inr (by decide)) (by decide)

/-! ### Header decomposition and exhaustive case analysis -/

/-- Parsing a frame built as host MAC (6 bytes), device MAC (6 bytes), a
16-bit big-endian protocol and a payload recovers exactly those parts. -/
theorem mkInPacket_header (A B D : List Nat) (p : Nat)
    (hA : A.length = 6) (hB : B.length = 6) (hp : p < 65536) :
    mkInPacket (A ++ B ++ putUint16be p ++ D) =
      { proto := p, hdr := A ++ B ++ putUint16be p, payload := D } := by
  have hAB : (A ++ B).length = 12 := by simp [hA, hB]
  have hH : (A ++ B ++ putUint16be p).length = 14 := by
    simp [hA, hB, putUint16be]
  have hre : A ++ B ++ putUint16be p ++ D = (A ++ B ++ putUint16be p) ++ D := by
    simp [List.append_assoc]
  have hre2 : A ++ B ++ putUint16be p ++ D = (A ++ B) ++ (putUint16be p ++ D) := by
    simp [List.append_assoc]
  have htake : (A ++ B ++ putUint16be p ++ D).take 14 = A ++ B ++ putUint16be p := by
    rw [hre, ← hH, List.take_left]
  have hdrop : (A ++ B ++ putUint16be p ++ D).drop 14 = D := by
    rw [hre, ← hH, List.drop_left]
  have h12 : (A ++ B ++ putUint16be p ++ D).getD 12 0 = p / 256 := by
    rw [hre2, List.getD_append_right _ _ _ _ (by omega), hAB]
    simp [putUint16be, Nat.mod_eq_of_lt hp]
  have h13 : (A ++ B ++ putUint16be p ++ D).getD 13 0 = p % 256 := by
    rw [hre2, List.getD_append_right _ _ _ _ (by omega), hAB]
    simp [putUint16be]
  unfold mkInPacket
  rw [htake, hdrop, h12, h13]
  congr 1
  exact Nat.div_add_mod p 256

/-- Exhaustive description of a successful `ECMRx` call: the returned byte
slice is always empty, the returned error is always nil, and the state is
either unchanged (drop), extended (retain), or reset with one packet
injected (dispatch). -/
theorem ECMRx_cases (st : NIC) (out : List Nat) (e : Option String) (r : RxResult)
    (h : ECMRx st out e = some r) :
    r.ret = [] ∧ r.err = none ∧
    (r.nic = st ∨ r.nic = { st with buf := st.buf ++ out } ∨
     r.nic = { st with buf := []
                       inbound := st.inbound ++ [mkInPacket (st.buf ++ out)] }) := by
  simp only [ECMRx] at h
  split at h
  · obtain rfl := Option.some.inj h
    exact ⟨rfl, rfl, Or.inl rfl⟩
  · split at h
    · obtain rfl := Option.some.inj h
      exact ⟨rfl, rfl, Or.inr (Or.inl rfl)⟩
    · split at h
      · obtain rfl := Option.some.inj h
        exact ⟨rfl, rfl, Or.inr (Or.inr rfl)⟩
      · exact absurd h (by simp)

/-- Feeding `k` maximum-size transfers of zeros retains all of them: the
buffer grows by `maxPacketSize` bytes per call with no dispatch and no
forcible reset. -/
theorem feedList_replicate_full (k : Nat) (mps : Nat) (hmps : 14 ≤ mps) :
    ∀ st : NIC, st.maxPacketSize = mps →
    feedList st (List.replicate k (List.replicate mps 0)) =
      some { st with buf := st.buf ++ List.replicate (k * mps) 0 } := by
  induction k with
  | zero =>
      intro st hm
      simp
      exact rfl
  | succ k ih =>
      intro st hm
      have hret := ECMRx_retain st (List.replicate mps 0) none
        (Or.inr (by simp [hmps])) (by simp [hm])
      have hih := ih { st with buf := st.buf ++ List.replicate mps 0 } (by simp [hm])
      rw [List.replicate_succ]
      rw [show feedList st
            (List.replicate mps 0 :: List.replicate k (List.replicate mps 0)) =
          feedList { st with buf := st.buf ++ List.replicate mps 0 }
            (List.replicate k (List.replicate mps 0)) from by
        simp [feedList, hret]]
      rw [hih]
      rw [show (k + 1) * mps = mps + k * mps from by ring, List.replicate_add]
      simp [List.append_assoc]

/-- C4: transmitting a queued packet with `ECMTx` and feeding the resulting
bytes back through the reassembler, as transfers terminated per the CDC-ECM
rule, injects a packet with the same payload and protocol, and the first 12
header bytes are exactly host MAC followed by device MAC. -/
theorem c4_roundtrip (st : NIC) (p : OutPacket) (rest : List OutPacket)
    (hout : st.outbound = p :: rest) (hp : p.proto < 65536)
    (h6 : st.hostMAC.length = 6) (h6d : st.deviceMAC.length = 6)
    (hbuf : st.buf = []) (hmps : 14 ≤ st.maxPacketSize) :
    (ECMTx st none).ret =
      st.hostMAC ++ st.deviceMAC ++ putUint16be p.proto ++ p.slices.flatten ∧
    feedList (ECMTx st none).nic
        (chunkFrame st.maxPacketSize (ECMTx st none).ret) =
      some { (ECMTx st none).nic with
             buf := []
             inbound := st.inbound ++
               [{ proto := p.proto
                  hdr := st.hostMAC ++ st.deviceMAC ++ putUint16be p.proto
                  payload := p.slices.flatten }] } ∧
    (st.hostMAC ++ st.deviceMAC ++ putUint16be p.proto).take 12 =
      st.hostMAC ++ st.deviceMAC := by
  have hret : (ECMTx st none).ret =
      st.hostMAC ++ st.deviceMAC ++ putUint16be p.proto ++ p.slices.flatten := by
    simp [ECMTx, hout]
  have hnic : (ECMTx st none).nic = { st with outbound := rest } := by
    simp [ECMTx, hout]
  have hlen : 14 ≤ (ECMTx st none).ret.length := by
    rw [hret]
    simp [h6, h6d, putUint16be]
    omega
  have hmpseq : (ECMTx st none).nic.maxPacketSize = st.maxPacketSize := by
    rw [hnic]
  have hfeed := feed_chunkFrame (ECMTx st none).nic (ECMTx st none).ret
    (by rw [hmpseq]; exact hmps)
    (by rw [hnic]; exact hbuf)
    hlen
  rw [hmpseq] at hfeed
  refine ⟨hret, ?_, ?_⟩
  · rw [hfeed, hret,
      mkInPacket_header st.hostMAC st.deviceMAC p.slices.flatten p.proto h6 h6d hp,
      hnic]
  · have hAB : (st.hostMAC ++ st.deviceMAC).length = 12 := by simp [h6, h6d]
    rw [show st.hostMAC ++ st.deviceMAC ++ putUint16be p.proto =
        (st.hostMAC ++ st.deviceMAC) ++ putUint16be p.proto from by
      simp [List.append_assoc], ← hAB, List.take_left]

/-- A NIC with one queued outbound packet, for the C4 witness. -/
def nicTx : NIC :=
  { nicW with outbound := [⟨2048, [[9, 9]]⟩] }

/-- Witness for C4 at a concrete queued packet (ethertype 2048, payload two
bytes). -/
theorem c4_witness :
    (ECMTx nicTx none).ret =
      nicTx.hostMAC ++ nicTx.deviceMAC ++ putUint16be 2048 ++ List.flatten [[9, 9]] ∧
    feedList (ECMTx nicTx none).nic
        (chunkFrame nicTx.maxPacketSize (ECMTx nicTx none).ret) =
      some { (ECMTx nicTx none).nic with
             buf := []
             inbound := nicTx.inbound ++
               [{ proto := 2048
                  hdr := nicTx.hostMAC ++ nicTx.deviceMAC ++ putUint16be 2048
                  payload := List.flatten [[9, 9]] }] } ∧
    (nicTx.hostMAC ++ nicTx.deviceMAC ++ putUint16be 2048).take 12 =
      nicTx.hostMAC ++ nicTx.deviceMAC :=
  c4_roundtrip nicTx ⟨2048, [[9, 9]]⟩ [] rfl (by decide) (by decide) (by decide)
    rfl (by decide)

/-- Counterexample to C5 as stated: the 28-byte frame `List.range 28` split
at an arbitrary boundary into two 14-byte transfers (each at most the
maximum packet size 16) is reassembled as two frames with empty payloads,
not as the single frame's 14-byte payload. -/
theorem c5_cex_arbitrary_split :
    ((List.range 28).take 14).length ≤ nicW.maxPacketSize ∧
    ((List.range 28).drop 14).length ≤ nicW.maxPacketSize ∧
    (List.range 28).take 14 ++ (List.range 28).drop 14 = List.range 28 ∧
    14 ≤ (List.range 28).length ∧
    (feedList nicW [(List.range 28).take 14, (List.range 28).drop 14]).map
        (fun s => s.inbound.map (fun q => (q.proto, q.payload))) =
      some [(3085, []), (6683, [])] ∧
    (feedList nicW [List.range 28]).map
        (fun s => s.inbound.map (fun q => (q.proto, q.payload))) =
      some [(3085, (List.range 28).drop 14)] ∧
    [(3085, ([] : List Nat)), (6683, [])] ≠ [(3085, (List.range 28).drop 14)] := by
  decide

/-- C5 amended: for splits terminated per the CDC-ECM completion rule (every
transfer before the last exactly the maximum packet size, the last strictly
shorter), feeding the sequence injects exactly the packet of the whole
frame, which agrees with feeding the frame as a single transfer whenever the
frame is shorter than the maximum packet size. -/
theorem c5_terminated_split_reassembly (st : NIC) (cs : List (List Nat)) (F : List Nat)
    (hbuf : st.buf = []) (hmps : 14 ≤ st.maxPacketSize)
    (hts : TerminatedSplit st.maxPacketSize cs) (hflat : cs.flatten = F)
    (hF : 14 ≤ F.length) :
    feedList st cs =
      some { st with buf := []
                     inbound := st.inbound ++ [mkInPacket F] } ∧
    (F.length < st.maxPacketSize →
      feedList st [F] =
        some { st with buf := []
                       inbound := st.inbound ++ [mkInPacket F] }) := by
  constructor
  · have h := feed_terminated st.maxPacketSize hmps cs hts st rfl
      (fun _ => by rw [hflat]; exact hF)
      (by rw [hflat, hbuf]; simpa using hF)
    rw [h]
    simp [hbuf, hflat]
  · intro hlt
    have hts1 : TerminatedSplit st.maxPacketSize [F] := TerminatedSplit.last F hlt
    have h := feed_terminated st.maxPacketSize hmps [F] hts1 st rfl
      (fun _ => by simpa using hF)
      (by rw [hbuf]; simpa using hF)
    rw [h]
    simp [hbuf]

/-- Witness for the amended C5: a single 14-byte transfer, itself a
terminated split, on a NIC with maximum packet size 16. -/
theorem c5_witness :
    feedList nicW [List.replicate 14 5] =
      some { nicW with buf := []
                       inbound := nicW.inbound ++ [mkInPacket (List.replicate 14 5)] } ∧
    ((List.replicate 14 5).length < nicW.maxPacketSize →
      feedList nicW [List.replicate 14 5] =
        some { nicW with buf := []
                         inbound := nicW.inbound ++ [mkInPacket (List.replicate 14 5)] }) :=
  c5_terminated_split_reassembly nicW [List.replicate 14 5] (List.replicate 14 5)
    rfl (by decide) (TerminatedSplit.last _ (by decide)) (by simp) (by decide)

/-- Counterexample to C6 as stated: four 512-byte transfers (the default
maximum packet size) leave 2048 bytes in the reassembly buffer — already
beyond the 1518-byte maximum standard Ethernet frame — with nothing injected
and nothing discarded; the code has no forcible reset. -/
theorem c6_cex_unbounded :
    feedList nic0 (List.replicate 4 (List.replicate 512 0)) =
      some { nic0 with buf := List.replicate 2048 0 } ∧
    (List.replicate 2048 (0 : Nat)).length = 2048 ∧
    1518 < (List.replicate 2048 (0 : Nat)).length ∧
    ({ nic0 with buf := List.replicate 2048 0 } : NIC).inbound = [] := by
  refine ⟨?_, by rw [List.length_replicate],
    by rw [List.length_replicate]; norm_num, rfl⟩
  have h := feedList_replicate_full 4 512 (by norm_num) nic0 rfl
  have hb : nic0.buf = [] := rfl
  rw [show (4 * 512 : Nat) = 2048 from by norm_num, hb, List.nil_append] at h
  exact h

/-- C6 amended: the reassembly buffer is not forcibly bounded.  Each receive
call grows the buffer by at most the chunk length and the buffer is cleared
only when a frame is dispatched; consequently `k` maximum-size transfers
from an empty buffer grow it to exactly `k * maxPacketSize` bytes, without
limit. -/
theorem c6_no_forcible_bound :
    (∀ (st : NIC) (out : List Nat) (e : Option String) (r : RxResult),
      ECMRx st out e = some r →
      r.nic.buf.length ≤ st.buf.length + out.length ∧
      (r.nic.inbound = st.inbound →
        r.nic.buf = st.buf ∨ r.nic.buf = st.buf ++ out)) ∧
    (∀ (k : Nat) (st : NIC), 14 ≤ st.maxPacketSize → st.buf = [] →
      feedList st (List.replicate k (List.replicate st.maxPacketSize 0)) =
        some { st with buf := List.replicate (k * st.maxPacketSize) 0 }) := by
  constructor
  · intro st out e r h
    rcases (ECMRx_cases st out e r h).2.2 with hn | hn | hn
    · rw [hn]
      exact ⟨Nat.le_add_right _ _, fun _ => Or.inl rfl⟩
    · rw [hn]
      exact ⟨by simp, fun _ => Or.inr rfl⟩
    · rw [hn]
      refine ⟨by simp, fun hin => ?_⟩
      simp only [NIC.inbound] at hin
      exact absurd hin (by simp)
  · intro k st hmps hbuf
    have h := feedList_replicate_full k st.maxPacketSize hmps st rfl
    rw [h, hbuf]
    simp

/-- Witness for the amended C6: one 16-byte transfer grows the buffer by 16
bytes, and two full transfers grow an empty buffer to 32 bytes. -/
theorem c6_amend_witness :
    ({ nicW with buf := nicW.buf ++ List.replicate 16 3 } : NIC).buf.length ≤
      nicW.buf.length + (List.replicate 16 3).length ∧
    feedList nicW (List.replicate 2 (List.replicate nicW.maxPacketSize 0)) =
      some { nicW with buf := List.replicate (2 * nicW.maxPacketSize) 0 } := by
  constructor
  · exact (c6_no_forcible_bound.1 nicW (List.replicate 16 3) none
      ⟨{ nicW with buf := nicW.buf ++ List.replicate 16 3 }, [], none⟩ rfl).1
  · exact c6_no_forcible_bound.2 2 nicW (by decide) rfl

/-- C7: from any state satisfying the buffer invariant, any sequence of
chunks of length at most the maximum packet size (itself at least 14) is
processed successfully and at every quiescent point the buffer length is 0
or at least 14. -/
theorem c7_buffer_invariant (st : NIC) (cs : List (List Nat))
    (hmps : 14 ≤ st.maxPacketSize)
    (hcs : ∀ c ∈ cs, c.length ≤ st.maxPacketSize)
    (hinv : bufInv st) :
    ∃ st', feedList st cs = some st' ∧ bufInv st' :=
  feedList_inv cs st hinv

/-- Witness for C7: a full 16-byte transfer followed by a short transfer. -/
theorem c7_witness :
    ∃ st', feedList nicW [List.replicate 16 0, List.replicate 5 0] = some st' ∧
      bufInv st' :=
  c7_buffer_invariant nicW [List.replicate 16 0, List.replicate 5 0]
    (by decide) (by decide) (Or.inl rfl)

/-- C8: with an empty buffer, a chunk shorter than 14 bytes is dropped
silently — no packet injected, no error returned, state unchanged — and a
subsequent valid frame (at least 14 bytes, terminated per the completion
rule) still reassembles to its correct payload and protocol. -/
theorem c8_short_drop (st : NIC) (out : List Nat) (e : Option String) (F : List Nat)
    (hbuf : st.buf = []) (hshort : out.length < 14)
    (hmps : 14 ≤ st.maxPacketSize) (hF : 14 ≤ F.length) :
    ECMRx st out e = some ⟨st, [], none⟩ ∧
    feedList st (out :: chunkFrame st.maxPacketSize F) =
      some { st with buf := []
                     inbound := st.inbound ++ [mkInPacket F] } := by
  have h1 := ECMRx_drop st out e hbuf hshort
  have h1n := ECMRx_drop st out none hbuf hshort
  refine ⟨h1, ?_⟩
  rw [show feedList st (out :: chunkFrame st.maxPacketSize F) =
      feedList st (chunkFrame st.maxPacketSize F) from by
    simp [feedList, h1n]]
  exact feed_chunkFrame st F hmps hbuf hF

/-- Witness for C8: a 3-byte chunk is dropped, then a 14-byte frame is
reassembled. -/
theorem c8_witness :
    ECMRx nicW [1, 2, 3] none = some ⟨nicW, [], none⟩ ∧
    feedList nicW ([1, 2, 3] :: chunkFrame nicW.maxPacketSize (List.replicate 14 1)) =
      some { nicW with buf := []
                       inbound := nicW.inbound ++ [mkInPacket (List.replicate 14 1)] } :=
  c8_short_drop nicW [1, 2, 3] none (List.replicate 14 1) rfl (by decide)
    (by decide) (by decide)

/-- Counterexample to C9 as stated: a non-nil upstream error passed into
`ECMRx` or `ECMTx` is not returned — both calls return a nil error. -/
theorem c9_cex_error_not_propagated :
    (ECMRx nicW (List.replicate 14 7) (some "transfer error")).map RxResult.err =
      some none ∧
    (ECMTx nicW (some "transfer error")).err = none ∧
    some (none : Option String) ≠ some (some "transfer error") := by
  exact ⟨rfl, rfl, by simp⟩

/-- C9 amended: the passed-in upstream error is ignored by both `ECMRx` and
`ECMTx`; they always return a nil error (and in particular never retry). -/
theorem c9_error_ignored (st : NIC) (out : List Nat) (e : Option String) :
    (∀ r, ECMRx st out e = some r → r.err = none) ∧ (ECMTx st e).err = none := by
  constructor
  · intro r h
    exact (ECMRx_cases st out e r h).2.1
  · unfold ECMTx
    split <;> rfl

/-- Witness for the amended C9 at a concrete state and error value. -/
theorem c9_amend_witness :
    (ECMTx nicW (some "e")).err = none ∧
    (ECMRx nicW (List.replicate 14 9) (some "e")).map RxResult.err = some none := by
  have h := c9_error_ignored nicW (List.replicate 14 9) (some "e")
  refine ⟨h.2, ?_⟩
  have hx : ECMRx nicW (List.replicate 14 9) (some "e") =
      some ⟨{ nicW with buf := []
                        inbound := nicW.inbound ++
                          [mkInPacket (nicW.buf ++ List.replicate 14 9)] },
            [], none⟩ := rfl
  rw [hx]
  simp [h.1 _ hx]

end Usbnet
